import Mathlib

/-!
Verification of the release-preparation script (scripts/release.py).

The development embeds the script's version data model and its pure decision
logic as Lean definitions, then proves the specified properties about them.
Behaviour implemented by third-party libraries (PEP440 parsing from the
packaging library, Version.coerce and next_major/minor/patch from the
semantic_version library) is not part of the repository source; those pieces
are modelled from the specification and are marked as such in their doc
comments.
-/

namespace Release

/-! ## Decimal digit helpers

The script renders counters and version components with Python str(int),
which the embedding mirrors with Nat.repr.  The lemmas below establish the
round trip between Nat.repr and the character-level parsing used by the
regular expressions in the script.
-/

/-- Numeric value of a decimal digit character. -/
def charVal (c : Char) : Nat := c.toNat - 48

/-- Value of a list of decimal digit characters, most significant first. -/
def digitsVal (cs : List Char) : Nat :=
  cs.foldl (fun a c => 10 * a + charVal c) 0

/-- Reference rendering of a natural number as decimal digit characters,
most significant first. -/
def digitsOf (n : Nat) : List Char :=
  if n < 10 then [Nat.digitChar n]
  else digitsOf (n / 10) ++ [Nat.digitChar (n % 10)]
decreasing_by
  exact Nat.div_lt_self (by omega) (by omega)

theorem digitsOf_lt (n : Nat) (h : n < 10) : digitsOf n = [Nat.digitChar n] := by
  unfold digitsOf
  simp [h]

theorem digitsOf_ge (n : Nat) (h : ¬ n < 10) :
    digitsOf n = digitsOf (n / 10) ++ [Nat.digitChar (n % 10)] := by
  conv_lhs => unfold digitsOf
  simp [h]

theorem toDigitsCore_eq_digitsOf (fuel n : Nat) (acc : List Char) (h : n < fuel) :
    Nat.toDigitsCore 10 fuel n acc = digitsOf n ++ acc := by
  induction fuel generalizing n acc with
  | zero => omega
  | succ f ih =>
    by_cases h10 : n < 10
    · have hdiv : n / 10 = 0 := Nat.div_eq_of_lt h10
      have hmod : n % 10 = n := Nat.mod_eq_of_lt h10
      simp [Nat.toDigitsCore, hdiv, digitsOf_lt n h10, hmod]
    · have hdiv : ¬ n / 10 = 0 := by
        intro hc
        have := Nat.div_eq_of_lt (show n < 10 by omega)
        omega
      have hlt : n / 10 < f := by
        have h1 : n / 10 < n := Nat.div_lt_self (by omega) (by omega)
        omega
      simp only [Nat.toDigitsCore, hdiv, if_false]
      rw [ih (n / 10) _ hlt, digitsOf_ge n h10]
      simp

theorem repr_data (n : Nat) : (Nat.repr n).data = digitsOf n := by
  show (Nat.toDigits 10 n).asString.data = digitsOf n
  unfold Nat.toDigits
  rw [toDigitsCore_eq_digitsOf (n + 1) n [] (by omega)]
  simp [List.asString]

theorem digitChar_isDigit (d : Nat) (h : d < 10) :
    (Nat.digitChar d).isDigit = true := by
  interval_cases d <;> decide

theorem charVal_digitChar (d : Nat) (h : d < 10) :
    charVal (Nat.digitChar d) = d := by
  interval_cases d <;> decide

theorem digitChar_toNat_ge (d : Nat) (h1 : 1 ≤ d) (h : d < 10) :
    49 ≤ (Nat.digitChar d).toNat ∧ (Nat.digitChar d).toNat ≤ 57 := by
  interval_cases d <;> exact ⟨by decide, by decide⟩

theorem digitsOf_ne_nil (n : Nat) : digitsOf n ≠ [] := by
  by_cases h : n < 10
  · rw [digitsOf_lt n h]; simp
  · rw [digitsOf_ge n h]; simp

theorem digitsOf_all_digits (n : Nat) : ∀ c ∈ digitsOf n, c.isDigit = true := by
  induction n using Nat.strong_induction_on with
  | _ n ih =>
    by_cases h : n < 10
    · rw [digitsOf_lt n h]
      intro c hc
      simp at hc
      subst hc
      exact digitChar_isDigit n h
    · rw [digitsOf_ge n h]
      intro c hc
      rcases List.mem_append.mp hc with hc | hc
      · exact ih (n / 10) (Nat.div_lt_self (by omega) (by omega)) c hc
      · simp at hc
        subst hc
        exact digitChar_isDigit (n % 10) (Nat.mod_lt _ (by omega))

theorem digitsVal_cons (a : Nat) (c : Char) (cs : List Char) :
    List.foldl (fun a c => 10 * a + charVal c) a (c :: cs) =
    List.foldl (fun a c => 10 * a + charVal c) (10 * a + charVal c) cs := rfl

theorem digitsVal_append_one (cs : List Char) (c : Char) (a : Nat) :
    List.foldl (fun a c => 10 * a + charVal c) a (cs ++ [c]) =
    10 * List.foldl (fun a c => 10 * a + charVal c) a cs + charVal c := by
  rw [List.foldl_append]
  rfl

theorem digitsVal_digitsOf (n : Nat) :
    ∀ a, List.foldl (fun a c => 10 * a + charVal c) a (digitsOf n) =
      a * 10 ^ (digitsOf n).length + n := by
  induction n using Nat.strong_induction_on with
  | _ n ih =>
    intro a
    by_cases h : n < 10
    · rw [digitsOf_lt n h]
      simp [List.foldl, charVal_digitChar n h]
      ring
    · rw [digitsOf_ge n h]
      rw [digitsVal_append_one]
      rw [ih (n / 10) (Nat.div_lt_self (by omega) (by omega)) a]
      rw [charVal_digitChar (n % 10) (Nat.mod_lt _ (by omega))]
      simp only [List.length_append, List.length_cons, List.length_nil, Nat.zero_add]
      have hmn : 10 * (n / 10) + n % 10 = n := by omega
      rw [pow_succ]
      calc 10 * (a * 10 ^ (digitsOf (n / 10)).length + n / 10) + n % 10
          = a * (10 ^ (digitsOf (n / 10)).length * 10) + (10 * (n / 10) + n % 10) := by ring
        _ = a * (10 ^ (digitsOf (n / 10)).length * 10) + n := by rw [hmn]

theorem digitsVal_digitsOf_zero (n : Nat) : digitsVal (digitsOf n) = n := by
  unfold digitsVal
  rw [digitsVal_digitsOf n 0]
  simp

theorem digitsOf_head_nonzero (n : Nat) (h1 : 1 ≤ n) :
    ∃ c cs, digitsOf n = c :: cs ∧ 49 ≤ c.toNat ∧ c.toNat ≤ 57 := by
  induction n using Nat.strong_induction_on with
  | _ n ih =>
    by_cases h : n < 10
    · refine ⟨Nat.digitChar n, [], digitsOf_lt n h, ?_⟩
      exact digitChar_toNat_ge n h1 h
    · obtain ⟨c, cs, hd, hc⟩ := ih (n / 10) (Nat.div_lt_self (by omega) (by omega))
        (by
          have : ¬ n / 10 = 0 := by
            intro hc0
            have := Nat.div_eq_of_lt (show n < 10 by omega)
            omega
          omega)
      refine ⟨c, cs ++ [Nat.digitChar (n % 10)], ?_, hc⟩
      rw [digitsOf_ge n h, hd]
      simp

theorem char_eq_of_toNat_eq (c d : Char) (h : c.toNat = d.toNat) : c = d :=
  Char.ext (UInt32.ext h)

theorem isDigit_toNat_bounds (c : Char) (h : c.isDigit = true) :
    48 ≤ c.toNat ∧ c.toNat ≤ 57 := by
  simp only [Char.isDigit, Bool.and_eq_true, decide_eq_true_eq] at h
  obtain ⟨h1, h2⟩ := h
  exact ⟨UInt32.le_toNat_of_le (by decide) h1, UInt32.toNat_le_of_le (by decide) h2⟩

theorem charVal_lt_ten (c : Char) (h : c.isDigit = true) : charVal c < 10 := by
  obtain ⟨h1, h2⟩ := isDigit_toNat_bounds c h
  unfold charVal
  omega

theorem charVal_pos (c : Char) (h : c.isDigit = true) (hne : c ≠ '0') :
    1 ≤ charVal c := by
  obtain ⟨h1, h2⟩ := isDigit_toNat_bounds c h
  have h48 : c.toNat ≠ 48 := by
    intro hc
    exact hne (char_eq_of_toNat_eq c '0' (by rw [hc]; decide))
  unfold charVal
  omega

theorem digitChar_charVal (c : Char) (h : c.isDigit = true) :
    Nat.digitChar (charVal c) = c := by
  obtain ⟨h1, h2⟩ := isDigit_toNat_bounds c h
  have hcases : c.toNat = 48 ∨ c.toNat = 49 ∨ c.toNat = 50 ∨ c.toNat = 51 ∨
      c.toNat = 52 ∨ c.toNat = 53 ∨ c.toNat = 54 ∨ c.toNat = 55 ∨
      c.toNat = 56 ∨ c.toNat = 57 := by omega
  rcases hcases with hv | hv | hv | hv | hv | hv | hv | hv | hv | hv
  · rw [char_eq_of_toNat_eq c '0' (by rw [hv]; decide)]; decide
  · rw [char_eq_of_toNat_eq c '1' (by rw [hv]; decide)]; decide
  · rw [char_eq_of_toNat_eq c '2' (by rw [hv]; decide)]; decide
  · rw [char_eq_of_toNat_eq c '3' (by rw [hv]; decide)]; decide
  · rw [char_eq_of_toNat_eq c '4' (by rw [hv]; decide)]; decide
  · rw [char_eq_of_toNat_eq c '5' (by rw [hv]; decide)]; decide
  · rw [char_eq_of_toNat_eq c '6' (by rw [hv]; decide)]; decide
  · rw [char_eq_of_toNat_eq c '7' (by rw [hv]; decide)]; decide
  · rw [char_eq_of_toNat_eq c '8' (by rw [hv]; decide)]; decide
  · rw [char_eq_of_toNat_eq c '9' (by rw [hv]; decide)]; decide

theorem digitsVal_shift (cs : List Char) :
    ∀ a, List.foldl (fun a c => 10 * a + charVal c) a cs =
      a * 10 ^ cs.length + digitsVal cs := by
  induction cs with
  | nil => intro a; simp [digitsVal]
  | cons c cs ih =>
    intro a
    have h0 : digitsVal (c :: cs) = charVal c * 10 ^ cs.length + digitsVal cs := by
      unfold digitsVal
      rw [digitsVal_cons, ih (10 * 0 + charVal c)]
      simp only [digitsVal]
      ring
    rw [digitsVal_cons, ih (10 * a + charVal c), h0]
    simp [List.length_cons, pow_succ]
    ring

theorem digitsVal_head_cons (c : Char) (cs : List Char) :
    digitsVal (c :: cs) = charVal c * 10 ^ cs.length + digitsVal cs := by
  unfold digitsVal
  rw [digitsVal_cons, digitsVal_shift cs (10 * 0 + charVal c)]
  simp only [digitsVal]
  ring

theorem digitsVal_pos (c : Char) (cs : List Char) (h : c.isDigit = true)
    (hne : c ≠ '0') : 1 ≤ digitsVal (c :: cs) := by
  rw [digitsVal_head_cons]
  have := charVal_pos c h hne
  have hpow : 1 ≤ 10 ^ cs.length := Nat.one_le_pow _ _ (by omega)
  have : 1 * 1 ≤ charVal c * 10 ^ cs.length := Nat.mul_le_mul this hpow
  omega

theorem digitsOf_digitsVal (rest : List Char) :
    ∀ c, (∀ x ∈ c :: rest, x.isDigit = true) → (c = '0' → rest = []) →
      digitsOf (digitsVal (c :: rest)) = c :: rest := by
  induction rest using List.reverseRecOn with
  | nil =>
    intro c hall hlead
    have hd : c.isDigit = true := hall c (by simp)
    have hval : digitsVal [c] = charVal c := by
      unfold digitsVal
      simp [digitsVal_cons, List.foldl]
    rw [hval, digitsOf_lt (charVal c) (charVal_lt_ten c hd), digitChar_charVal c hd]
  | append_singleton rest x ih =>
    intro c hall hlead
    have hcz : c ≠ '0' := by
      intro hc
      exact absurd (hlead hc) (by simp)
    have hcd : c.isDigit = true := hall c (by simp)
    have hxd : x.isDigit = true := hall x (by simp)
    have hsplit : digitsVal (c :: (rest ++ [x])) =
        10 * digitsVal (c :: rest) + charVal x := by
      unfold digitsVal
      have : c :: (rest ++ [x]) = (c :: rest) ++ [x] := by simp
      rw [this, digitsVal_append_one]
    set k := digitsVal (c :: rest) with hk
    have hkpos : 1 ≤ k := digitsVal_pos c rest hcd hcz
    have hxlt : charVal x < 10 := charVal_lt_ten x hxd
    have hge : ¬ 10 * k + charVal x < 10 := by omega
    rw [hsplit, digitsOf_ge _ hge]
    have hdiv : (10 * k + charVal x) / 10 = k := by omega
    have hmod : (10 * k + charVal x) % 10 = charVal x := by omega
    rw [hdiv, hmod, digitChar_charVal x hxd]
    rw [hk, ih c (fun y hy => hall y (by simp at hy ⊢; tauto)) (fun hc => absurd hc hcz)]
    simp

theorem repr_digitsVal (c : Char) (rest : List Char)
    (hall : ∀ x ∈ c :: rest, x.isDigit = true) (hlead : c = '0' → rest = []) :
    (Nat.repr (digitsVal (c :: rest))).data = c :: rest := by
  rw [repr_data, digitsOf_digitsVal rest c hall hlead]

/-! ## Data model

The script subclasses semantic_version.Version; a version is
major.minor.patch with optional prerelease and build identifier lists.
-/

/-- A version value: major.minor.patch plus optional prerelease and build
identifier lists, as held by the Version class of scripts/release.py. -/
structure Version where
  major : Nat
  minor : Nat
  patch : Nat
  prerelease : List String
  build : List String
deriving DecidableEq

/-- The two prerelease flavors, the keys of PRERELEASE_FLAVOR_CODES in
scripts/release.py. -/
inductive Flavor where
  | alpha
  | rc
deriving DecidableEq

/-- PRERELEASE_FLAVOR_CODES = ("alpha" maps to "a", "rc" maps to "rc"). -/
def flavorCode : Flavor → String
  | .alpha => "a"
  | .rc => "rc"

/-- PRERELEASE_FLAVORS = ("alpha", "rc") from scripts/release.py. -/
def PRERELEASE_FLAVORS : List String := ["alpha", "rc"]

/-- Looks a flavor name up among PRERELEASE_FLAVORS. -/
def flavorOfText (s : String) : Option Flavor :=
  if s == "alpha" then some Flavor.alpha
  else if s == "rc" then some Flavor.rc
  else none

/-- The counter group of PRERELEASE_VERSION_PATTERN, the regex group
([1-9]\d*): a nonzero decimal digit followed by decimal digits, read as a
number. -/
def counterMatch (cs : List Char) : Option Nat :=
  match cs with
  | [] => none
  | c :: rest =>
    if 49 ≤ c.toNat && c.toNat ≤ 57 && rest.all Char.isDigit then
      some (digitsVal (c :: rest))
    else none

/-- PRERELEASE_VERSION_PATTERN from scripts/release.py, the regex
(a|rc)([1-9]\d*) anchored at both ends; returns group 1 and group 2 read as
an integer, as next_prerelease does. -/
def prereleasePatternMatch (s : String) : Option (String × Nat) :=
  match s.data with
  | 'a' :: rest => (counterMatch rest).map (fun n => ("a", n))
  | 'r' :: 'c' :: rest => (counterMatch rest).map (fun n => ("rc", n))
  | _ => none

/-- RELEASE_BRANCH_PATTERN from scripts/release.py, the anchored regex of
digits dot digits dot the letter x. -/
def releaseBranchPatternMatch (s : String) : Bool :=
  match s.data.takeWhile Char.isDigit, s.data.dropWhile Char.isDigit with
  | [], _ => false
  | _ :: _, '.' :: rest2 =>
    match rest2.takeWhile Char.isDigit, rest2.dropWhile Char.isDigit with
    | [], _ => false
    | _ :: _, '.' :: rest3 => rest3 == ['x']
    | _, _ => false
  | _, _ => false

/-- Python str.replace removing every hyphen, as Version.__str__ of
scripts/release.py applies to the base rendering. -/
def stripHyphens (s : String) : String :=
  String.mk (s.data.filter (fun c => c != '-'))

/-- Version.__str__ from scripts/release.py: the base class renders
"major.minor.patch", a hyphen plus the dot-joined prerelease identifiers
when a prerelease is present, and a plus sign plus the dot-joined build
identifiers when a build is present (the base rendering is modelled from the
spec canonical string form, the semantic_version library being outside the
repository); the subclass then removes every hyphen. -/
def Version.format (v : Version) : String :=
  stripHyphens
    (Nat.repr v.major ++ "." ++ Nat.repr v.minor ++ "." ++ Nat.repr v.patch ++
      (if v.prerelease.isEmpty then ""
       else "-" ++ String.intercalate "." v.prerelease) ++
      (if v.build.isEmpty then ""
       else "+" ++ String.intercalate "." v.build))

/-- is_prerelease_version from scripts/release.py: exactly one prerelease
identifier and it matches PRERELEASE_VERSION_PATTERN. -/
def is_prerelease_version (version : Version) : Bool :=
  match version.prerelease with
  | [p] => (prereleasePatternMatch p).isSome
  | _ => false

/-- is_alpha_version from scripts/release.py: exactly one prerelease
identifier, it matches PRERELEASE_VERSION_PATTERN, and its flavor group is
"a". -/
def is_alpha_version (version : Version) : Bool :=
  match version.prerelease with
  | [p] =>
    match prereleasePatternMatch p with
    | some pr => pr.1 == "a"
    | none => false
  | _ => false

/-- next_prerelease(version, flavor) from scripts/release.py: the counter
starts at 0 for a prerelease-free version and is read from the first
prerelease identifier otherwise; the result keeps major.minor.patch and gets
the requested flavor code with the counter plus one.  none models the
AttributeError raised when the first prerelease identifier does not match
PRERELEASE_VERSION_PATTERN. -/
def next_prerelease (version : Version) (flavor : Flavor) : Option Version :=
  (match version.prerelease with
   | [] => some 0
   | p :: _ => (prereleasePatternMatch p).map (fun (pr : String × Nat) => pr.2)).map
    (fun prereleaseNumber =>
      { major := version.major, minor := version.minor, patch := version.patch,
        prerelease := [flavorCode flavor ++ Nat.repr (prereleaseNumber + 1)],
        build := [] })

/-! ## Parsing and validation

parse_version is the one definition written from the specification rather
than the source: the script delegates string-to-version conversion to
packaging (PEP440 parsing) and semantic_version (Version.coerce), neither of
which is part of the repository.
-/

/-- Numeric component of a version string: the longest leading run of digit
characters, rejected when empty or when it has a leading zero before further
digits. -/
def numComponent (cs : List Char) : Option (Nat × List Char) :=
  match cs.takeWhile Char.isDigit with
  | [] => none
  | d :: ds =>
    if d == '0' && !ds.isEmpty then none
    else some (digitsVal (d :: ds), cs.dropWhile Char.isDigit)

/-- Consumes one dot. -/
def expectDot : List Char → Option (List Char)
  | '.' :: rest => some rest
  | _ => none

/-- Modelled from the spec: VersionSpec.parse, standing in for the PEP440
LegacyVersion test of the packaging library together with Version.coerce of
the semantic_version library, both absent from the repository source.  It
accepts X.Y.Z optionally followed directly by a<N> or rc<N> where N is a
positive integer with no leading zero; none models FormatError. -/
def parse_version (s : String) : Option Version :=
  (numComponent s.data).bind fun p1 =>
    (expectDot p1.2).bind fun r2 =>
      (numComponent r2).bind fun p2 =>
        (expectDot p2.2).bind fun r4 =>
          (numComponent r4).bind fun p3 =>
            match p3.2 with
            | [] => some ⟨p1.1, p2.1, p3.1, [], []⟩
            | r5 =>
              (prereleasePatternMatch (String.mk r5)).map fun _ =>
                ⟨p1.1, p2.1, p3.1, [String.mk r5], []⟩

/-- Modelled from the spec: Version.coerce of the semantic_version library
is absent from the repository source; the spec folds string-to-version
conversion into VersionSpec.parse, so coerce is modelled as parse_version. -/
def Version.coerce (s : String) : Option Version := parse_version s

/-- validate_version from scripts/release.py: the version text must not be a
PEP440 legacy version and, once coerced, must have no prerelease or a
prerelease accepted by is_prerelease_version.  The two library calls are
modelled by parse_version. -/
def validate_version (version : String) : Bool :=
  match Version.coerce version with
  | none => false
  | some versionObject =>
    versionObject.prerelease.isEmpty || is_prerelease_version versionObject

/-- Modelled from the spec: next_major of the semantic_version library,
"increments the respective component, zeroes lower components, drops any
prerelease". -/
def Version.next_major (v : Version) : Version := ⟨v.major + 1, 0, 0, [], []⟩

/-- Modelled from the spec: next_minor of the semantic_version library. -/
def Version.next_minor (v : Version) : Version := ⟨v.major, v.minor + 1, 0, [], []⟩

/-- Modelled from the spec: next_patch of the semantic_version library. -/
def Version.next_patch (v : Version) : Version := ⟨v.major, v.minor, v.patch + 1, [], []⟩

/-! ## Interactive resolution and orchestration -/

/-- The condition under which ask_version of scripts/release.py presents the
three-way select: the typed answer is one of PRERELEASE_FLAVORS and the
current version has no prerelease. -/
def ask_version_select_triggered (answer : String) (currentVersion : Version) : Bool :=
  PRERELEASE_FLAVORS.contains answer && currentVersion.prerelease.isEmpty

/-- The choices ask_version offers in the three-way select, in source
order: next minor, next patch, next major, each advanced into the requested
flavor. -/
def ask_version_choices (currentVersion : Version) (flavor : Flavor) :
    List (Option Version) :=
  [next_prerelease currentVersion.next_minor flavor,
   next_prerelease currentVersion.next_patch flavor,
   next_prerelease currentVersion.next_major flavor]

/-- Result of parse_next_version: a version, the raise of an invalid-version
exception, or an uncaught library error. -/
inductive ResolveResult where
  | ok (v : Version)
  | invalid
  | crash
deriving DecidableEq

/-- parse_next_version(version) from scripts/release.py, with the current
version text (read from the version file) passed explicitly. -/
def parse_next_version (currentVersion : String) (version : String) : ResolveResult :=
  if version == "major" then
    match Version.coerce currentVersion with
    | some c => .ok c.next_major
    | none => .crash
  else if version == "minor" then
    match Version.coerce currentVersion with
    | some c => .ok c.next_minor
    | none => .crash
  else if version == "patch" then
    match Version.coerce currentVersion with
    | some c => .ok c.next_patch
    | none => .crash
  else if PRERELEASE_FLAVORS.contains version then
    match Version.coerce currentVersion with
    | none => .crash
    | some c =>
      match flavorOfText version with
      | none => .crash
      | some fl =>
        match next_prerelease c fl with
        | some v => .ok v
        | none => .crash
  else if validate_version version then
    match Version.coerce version with
    | some v => .ok v
    | none => .crash
  else .invalid

/-- git_current_branch_is_master_or_release from scripts/release.py, with
the current branch passed explicitly. -/
def git_current_branch_is_master_or_release (currentBranch : String) : Bool :=
  currentBranch == "master" || releaseBranchPatternMatch currentBranch

/-- The branch name create_release_branch builds: the fixed stem
"prepare-release-" followed by str(version). -/
def release_branch_name (version : Version) : String :=
  "prepare-release-" ++ version.format

/-- The comparison link print_done_message builds from the base branch and
the release branch. -/
def pull_request_url (base branch : String) : String :=
  "https://github.com/RasaHQ/rasa" ++ "/compare/" ++ base ++ "..." ++ branch ++
    "?expand=1"

/-- validate_code_is_release_ready from scripts/release.py, with the
rasa-sdk dependency text passed explicitly.  some true means the check
passes, some false means sys.exit(1) on a major.minor mismatch, none models
Version.coerce failing on the dependency text. -/
def validate_code_is_release_ready (sdk : String) (version : Version) : Option Bool :=
  match Version.coerce sdk with
  | none => none
  | some s =>
    some (s.major == version.major && s.minor == version.minor)

/-- Abstract inputs of one run of main from scripts/release.py: the state of
the external collaborators and the answers of the user. -/
structure Env where
  gitClean : Bool
  currentVersion : String
  directive : String
  confirmAnswer : Bool
  sdkVersion : String
  branch : String
  tags : List String
deriving DecidableEq

/-- Observable steps of a run of main from scripts/release.py. -/
inductive Event where
  | checkCleanGit
  | resolveVersion
  | askConfirm (overwrite : Bool) (defaultAnswer : Bool)
  | checkSdk
  | writeVersionFile (text : String)
  | writePyproject (text : String)
  | generateChangelog (text : String)
  | createBranch (name : String)
  | commit (text : String)
  | push
  | doneSameBranch (text : String)
  | doneNewBranch (url : String)
deriving DecidableEq

/-- How a run of main ends. -/
inductive Outcome where
  | completed
  | exited
  | errored
deriving DecidableEq

/-- The trace of a run of main and how it ended.  exited is sys.exit(1),
errored is an uncaught exception. -/
structure RunResult where
  events : List Event
  outcome : Outcome
deriving DecidableEq

/-- main(args) from scripts/release.py as a trace over the abstract
collaborators: ensure_clean_git, next_version, confirm_version,
validate_code_is_release_ready, the two metadata writes, the changelog
step guarded on the prerelease, and the workflow selection between the
same-branch commit and the release branch. -/
def main_run (env : Env) : RunResult :=
  if !env.gitClean then ⟨[Event.checkCleanGit], .exited⟩
  else
    match parse_next_version env.currentVersion env.directive with
    | .invalid => ⟨[Event.checkCleanGit, Event.resolveVersion], .errored⟩
    | .crash => ⟨[Event.checkCleanGit, Event.resolveVersion], .errored⟩
    | .ok version =>
      if !env.confirmAnswer then
        ⟨[Event.checkCleanGit, Event.resolveVersion,
          Event.askConfirm (env.tags.contains version.format)
            (if env.tags.contains version.format then false else true)], .exited⟩
      else
        match validate_code_is_release_ready env.sdkVersion version with
        | none =>
          ⟨[Event.checkCleanGit, Event.resolveVersion,
            Event.askConfirm (env.tags.contains version.format)
              (if env.tags.contains version.format then false else true),
            Event.checkSdk], .errored⟩
        | some false =>
          ⟨[Event.checkCleanGit, Event.resolveVersion,
            Event.askConfirm (env.tags.contains version.format)
              (if env.tags.contains version.format then false else true),
            Event.checkSdk], .exited⟩
        | some true =>
          if is_alpha_version version &&
              !git_current_branch_is_master_or_release env.branch then
            ⟨[Event.checkCleanGit, Event.resolveVersion,
              Event.askConfirm (env.tags.contains version.format)
                (if env.tags.contains version.format then false else true),
              Event.checkSdk, Event.writeVersionFile version.format,
              Event.writePyproject version.format] ++
              (if version.prerelease.isEmpty then [Event.generateChangelog version.format]
               else []) ++
              [Event.commit version.format, Event.push,
               Event.doneSameBranch version.format], .completed⟩
          else
            ⟨[Event.checkCleanGit, Event.resolveVersion,
              Event.askConfirm (env.tags.contains version.format)
                (if env.tags.contains version.format then false else true),
              Event.checkSdk, Event.writeVersionFile version.format,
              Event.writePyproject version.format] ++
              (if version.prerelease.isEmpty then [Event.generateChangelog version.format]
               else []) ++
              [Event.createBranch (release_branch_name version),
               Event.commit version.format, Event.push,
               Event.doneNewBranch
                 (pull_request_url env.branch (release_branch_name version))],
             .completed⟩

/-! ## Pattern lemmas -/

theorem isDigit_of_toNat_bounds (c : Char) (h1 : 48 ≤ c.toNat) (h2 : c.toNat ≤ 57) :
    c.isDigit = true := by
  have hcases : c.toNat = 48 ∨ c.toNat = 49 ∨ c.toNat = 50 ∨ c.toNat = 51 ∨
      c.toNat = 52 ∨ c.toNat = 53 ∨ c.toNat = 54 ∨ c.toNat = 55 ∨
      c.toNat = 56 ∨ c.toNat = 57 := by omega
  rcases hcases with hv | hv | hv | hv | hv | hv | hv | hv | hv | hv
  · rw [char_eq_of_toNat_eq c '0' (by rw [hv]; decide)]; decide
  · rw [char_eq_of_toNat_eq c '1' (by rw [hv]; decide)]; decide
  · rw [char_eq_of_toNat_eq c '2' (by rw [hv]; decide)]; decide
  · rw [char_eq_of_toNat_eq c '3' (by rw [hv]; decide)]; decide
  · rw [char_eq_of_toNat_eq c '4' (by rw [hv]; decide)]; decide
  · rw [char_eq_of_toNat_eq c '5' (by rw [hv]; decide)]; decide
  · rw [char_eq_of_toNat_eq c '6' (by rw [hv]; decide)]; decide
  · rw [char_eq_of_toNat_eq c '7' (by rw [hv]; decide)]; decide
  · rw [char_eq_of_toNat_eq c '8' (by rw [hv]; decide)]; decide
  · rw [char_eq_of_toNat_eq c '9' (by rw [hv]; decide)]; decide

theorem ne_zero_char_of_toNat_ge (c : Char) (h1 : 49 ≤ c.toNat) : c ≠ '0' := by
  intro h
  subst h
  have : Char.toNat '0' = 48 := rfl
  omega

theorem counterMatch_sound (cs : List Char) (n : Nat) (h : counterMatch cs = some n) :
    1 ≤ n ∧ cs = (Nat.repr n).data := by
  cases cs with
  | nil => simp [counterMatch] at h
  | cons c rest =>
    simp only [counterMatch] at h
    split at h
    case isTrue hg =>
      simp only [Bool.and_eq_true, decide_eq_true_eq] at hg
      obtain ⟨⟨hc1, hc2⟩, hrest⟩ := hg
      have hcd : c.isDigit = true := isDigit_of_toNat_bounds c (by omega) hc2
      have hcz : c ≠ '0' := ne_zero_char_of_toNat_ge c hc1
      have hall : ∀ x ∈ c :: rest, x.isDigit = true := by
        intro x hx
        rcases List.mem_cons.mp hx with hx | hx
        · subst hx; exact hcd
        · exact (List.all_eq_true.mp hrest) x hx
      have hval : digitsVal (c :: rest) = n := by
        injection h
      constructor
      · rw [← hval]
        exact digitsVal_pos c rest hcd hcz
      · rw [← hval]
        exact (repr_digitsVal c rest hall (fun hc => absurd hc hcz)).symm
    case isFalse => exact absurd h (by simp)

theorem counterMatch_repr (n : Nat) (h : 1 ≤ n) :
    counterMatch (Nat.repr n).data = some n := by
  rw [repr_data]
  obtain ⟨c, cs, hd, h1, h2⟩ := digitsOf_head_nonzero n h
  have hall := digitsOf_all_digits n
  rw [hd] at hall ⊢
  have hcs : ∀ x ∈ cs, x.isDigit = true := fun x hx => hall x (by simp [hx])
  simp only [counterMatch]
  have hguard : (49 ≤ c.toNat && c.toNat ≤ 57 && cs.all Char.isDigit) = true := by
    simp only [Bool.and_eq_true, decide_eq_true_eq]
    exact ⟨⟨h1, h2⟩, List.all_eq_true.mpr hcs⟩
  rw [hguard]
  simp only [if_true]
  rw [← hd, digitsVal_digitsOf_zero]

theorem data_flavor_append_alpha (t : String) :
    (("a" ++ t) : String).data = 'a' :: t.data := by
  rw [String.data_append]
  rfl

theorem data_flavor_append_rc (t : String) :
    (("rc" ++ t) : String).data = 'r' :: 'c' :: t.data := by
  rw [String.data_append]
  rfl

theorem prereleasePatternMatch_code_repr (fl : Flavor) (n : Nat) (h : 1 ≤ n) :
    prereleasePatternMatch (flavorCode fl ++ Nat.repr n) = some (flavorCode fl, n) := by
  cases fl with
  | alpha =>
    simp only [flavorCode, prereleasePatternMatch, data_flavor_append_alpha]
    rw [counterMatch_repr n h]
    rfl
  | rc =>
    simp only [flavorCode, prereleasePatternMatch, data_flavor_append_rc]
    rw [counterMatch_repr n h]
    rfl

theorem prereleasePatternMatch_sound (s : String) (fl : String) (n : Nat)
    (h : prereleasePatternMatch s = some (fl, n)) :
    1 ≤ n ∧ ((fl = "a" ∧ s = "a" ++ Nat.repr n) ∨ (fl = "rc" ∧ s = "rc" ++ Nat.repr n)) := by
  unfold prereleasePatternMatch at h
  split at h
  case h_1 rest heq =>
    rcases Option.map_eq_some'.mp h with ⟨m, hm, hpair⟩
    cases hpair
    obtain ⟨hn1, hdata⟩ := counterMatch_sound rest n hm
    refine ⟨hn1, Or.inl ⟨rfl, ?_⟩⟩
    apply String.ext
    rw [heq, data_flavor_append_alpha, hdata]
  case h_2 rest heq =>
    rcases Option.map_eq_some'.mp h with ⟨m, hm, hpair⟩
    cases hpair
    obtain ⟨hn1, hdata⟩ := counterMatch_sound rest n hm
    refine ⟨hn1, Or.inr ⟨rfl, ?_⟩⟩
    apply String.ext
    rw [heq, data_flavor_append_rc, hdata]
  case h_3 => exact absurd h (by simp)

/-! ## Canonical shape and the format round trip -/

/-- The versions producible by this system: no build identifiers, and either
no prerelease or a single identifier that is a flavor code followed by a
positive counter. -/
def Wellformed (v : Version) : Prop :=
  v.build = [] ∧
    (v.prerelease = [] ∨
      ∃ fl n, 1 ≤ n ∧ v.prerelease = [flavorCode fl ++ Nat.repr n])

theorem ne_hyphen_of_isDigit (c : Char) (h : c.isDigit = true) :
    (c != '-') = true := by
  obtain ⟨h1, _⟩ := isDigit_toNat_bounds c h
  simp only [bne_iff_ne, ne_eq]
  intro hc
  subst hc
  have : Char.toNat '-' = 45 := rfl
  omega

theorem filter_hyphen_digitsOf (n : Nat) :
    (digitsOf n).filter (fun c => c != '-') = digitsOf n :=
  List.filter_eq_self.mpr
    (fun c hc => ne_hyphen_of_isDigit c (digitsOf_all_digits n c hc))

theorem dot_data : (("." : String)).data = ['.'] := rfl

theorem intercalate_singleton (p : String) : String.intercalate "." [p] = p := by
  simp [String.intercalate, String.intercalate.go]

theorem empty_data : (("" : String)).data = [] := rfl

theorem format_data_final (v : Version) (hp : v.prerelease = []) (hb : v.build = []) :
    (Version.format v).data =
      digitsOf v.major ++ ('.' :: (digitsOf v.minor ++ ('.' :: digitsOf v.patch))) := by
  unfold Version.format stripHyphens
  rw [hp, hb]
  simp only [List.isEmpty_nil, if_true]
  show List.filter (fun c => c != '-')
      ((Nat.repr v.major ++ "." ++ Nat.repr v.minor ++ "." ++ Nat.repr v.patch ++
        "" ++ "").data) = _
  simp only [String.data_append, repr_data, dot_data, empty_data,
    List.append_nil, List.filter_append, filter_hyphen_digitsOf]
  simp [List.filter]

theorem hyphen_data : (("-" : String)).data = ['-'] := rfl

theorem filter_hyphen_flavor (fl : Flavor) :
    (flavorCode fl).data.filter (fun c => c != '-') = (flavorCode fl).data := by
  cases fl <;> rfl

theorem format_data_pre (v : Version) (fl : Flavor) (n : Nat)
    (hp : v.prerelease = [flavorCode fl ++ Nat.repr n]) (hb : v.build = []) :
    (Version.format v).data =
      digitsOf v.major ++ ('.' :: (digitsOf v.minor ++ ('.' ::
        (digitsOf v.patch ++ ((flavorCode fl).data ++ digitsOf n))))) := by
  unfold Version.format stripHyphens
  rw [hp, hb]
  simp only [List.isEmpty_nil, if_true, List.isEmpty_cons, Bool.false_eq_true,
    if_false, intercalate_singleton]
  show List.filter (fun c => c != '-')
      ((Nat.repr v.major ++ "." ++ Nat.repr v.minor ++ "." ++ Nat.repr v.patch ++
        ("-" ++ (flavorCode fl ++ Nat.repr n)) ++ "").data) = _
  simp only [String.data_append, repr_data, dot_data, empty_data, hyphen_data,
    List.append_nil, List.filter_append, filter_hyphen_digitsOf,
    filter_hyphen_flavor]
  simp [List.filter]

/-! ## Parser lemmas -/

theorem numComponent_digitsOf (M : Nat) (rest : List Char)
    (hrest : ∀ c cs, rest = c :: cs → c.isDigit = false) :
    numComponent (digitsOf M ++ rest) = some (M, rest) := by
  have hall : ∀ c ∈ digitsOf M, Char.isDigit c := digitsOf_all_digits M
  have hrtake : rest.takeWhile Char.isDigit = [] := by
    cases rest with
    | nil => rfl
    | cons c cs => simp [List.takeWhile_cons, hrest c cs rfl]
  have hrdrop : rest.dropWhile Char.isDigit = rest := by
    cases rest with
    | nil => rfl
    | cons c cs => simp [List.dropWhile_cons, hrest c cs rfl]
  have htake : (digitsOf M ++ rest).takeWhile Char.isDigit = digitsOf M := by
    rw [List.takeWhile_append_of_pos hall, hrtake, List.append_nil]
  have hdrop : (digitsOf M ++ rest).dropWhile Char.isDigit = rest := by
    rw [List.dropWhile_append_of_pos hall, hrdrop]
  obtain ⟨c, cs, hM⟩ : ∃ c cs, digitsOf M = c :: cs := by
    cases hM : digitsOf M with
    | nil => exact absurd hM (digitsOf_ne_nil M)
    | cons c cs => exact ⟨c, cs, rfl⟩
  unfold numComponent
  rw [htake, hM]
  have hguard : (c == '0' && !cs.isEmpty) = false := by
    by_cases hM1 : 1 ≤ M
    · obtain ⟨d, ds, hd, hd1, _⟩ := digitsOf_head_nonzero M hM1
      rw [hM] at hd
      injection hd with hcd hcs
      subst hcd
      have : c ≠ '0' := ne_zero_char_of_toNat_ge c hd1
      simp [this]
    · have hM0 : M = 0 := by omega
      subst hM0
      have h0 : digitsOf 0 = ['0'] := by rw [digitsOf_lt 0 (by omega)]; rfl
      rw [h0] at hM
      injection hM with hc1 hc2
      simp [← hc2]
  simp only [hguard, Bool.false_eq_true, if_false]
  rw [← hM, digitsVal_digitsOf_zero, hdrop]

theorem numComponent_sound (cs : List Char) (n : Nat) (rest : List Char)
    (h : numComponent cs = some (n, rest)) :
    cs = digitsOf n ++ rest := by
  unfold numComponent at h
  split at h
  case h_1 => exact absurd h (by simp)
  case h_2 d ds heq =>
    split at h
    case isTrue => exact absurd h (by simp)
    case isFalse hguard =>
      injection h with hpair
      have hvald : digitsVal (d :: ds) = n := congrArg Prod.fst hpair
      have hdropd : cs.dropWhile Char.isDigit = rest := congrArg Prod.snd hpair
      have halld : ∀ x ∈ d :: ds, x.isDigit = true := by
        intro x hx
        rw [← heq] at hx
        exact List.mem_takeWhile_imp hx
      have hlead : d = '0' → ds = [] := by
        intro hd0
        by_contra hne
        apply hguard
        simp [hd0, List.isEmpty_iff, hne]
      have hds : digitsOf n = d :: ds := by
        rw [← hvald]
        exact digitsOf_digitsVal ds d halld hlead
      calc cs = cs.takeWhile Char.isDigit ++ cs.dropWhile Char.isDigit :=
            (List.takeWhile_append_dropWhile _ _).symm
        _ = digitsOf n ++ rest := by rw [heq, hds, hdropd]

theorem expectDot_sound (cs rest : List Char) (h : expectDot cs = some rest) :
    cs = '.' :: rest := by
  unfold expectDot at h
  split at h
  case h_1 => injection h with h1; rw [h1]
  case h_2 => exact absurd h (by simp)

theorem version_eta_final (v : Version) (hp : v.prerelease = []) (hb : v.build = []) :
    (⟨v.major, v.minor, v.patch, [], []⟩ : Version) = v := by
  obtain ⟨M, m, p, pre, b⟩ := v
  change pre = [] at hp
  change b = [] at hb
  subst hp
  subst hb
  rfl

theorem version_eta_pre (v : Version) (seg : String) (hp : v.prerelease = [seg])
    (hb : v.build = []) :
    (⟨v.major, v.minor, v.patch, [seg], []⟩ : Version) = v := by
  obtain ⟨M, m, p, pre, b⟩ := v
  change pre = [seg] at hp
  change b = [] at hb
  subst hp
  subst hb
  rfl

theorem expectDot_cons (r : List Char) : expectDot ('.' :: r) = some r := rfl

theorem dot_not_digit : ('.').isDigit = false := by decide

theorem parse_format (v : Version) (hw : Wellformed v) :
    parse_version (Version.format v) = some v := by
  obtain ⟨hb, hpre⟩ := hw
  rcases hpre with hp | ⟨fl, n, hn, hp⟩
  · unfold parse_version
    rw [format_data_final v hp hb]
    rw [numComponent_digitsOf v.major ('.' :: (digitsOf v.minor ++ ('.' :: digitsOf v.patch)))
      (fun c cs h => by injection h with h1 _; rw [← h1]; exact dot_not_digit)]
    simp only [Option.some_bind, expectDot_cons]
    rw [numComponent_digitsOf v.minor ('.' :: digitsOf v.patch)
      (fun c cs h => by injection h with h1 _; rw [← h1]; exact dot_not_digit)]
    simp only [Option.some_bind, expectDot_cons]
    rw [show (digitsOf v.patch : List Char) = digitsOf v.patch ++ [] by simp]
    rw [numComponent_digitsOf v.patch [] (fun c cs h => by cases h)]
    simp only [Option.some_bind]
    rw [version_eta_final v hp hb]
  · unfold parse_version
    rw [format_data_pre v fl n hp hb]
    rw [numComponent_digitsOf v.major _
      (fun c cs h => by injection h with h1 _; rw [← h1]; exact dot_not_digit)]
    simp only [Option.some_bind, expectDot_cons]
    rw [numComponent_digitsOf v.minor _
      (fun c cs h => by injection h with h1 _; rw [← h1]; exact dot_not_digit)]
    simp only [Option.some_bind, expectDot_cons]
    rw [numComponent_digitsOf v.patch ((flavorCode fl).data ++ digitsOf n)
      (fun c cs h => by
        cases fl with
        | alpha => injection h with h1 _; rw [← h1]; decide
        | rc => injection h with h1 _; rw [← h1]; decide)]
    simp only [Option.some_bind]
    have hseg : String.mk ((flavorCode fl).data ++ digitsOf n) =
        flavorCode fl ++ Nat.repr n := by
      apply String.ext
      show (flavorCode fl).data ++ digitsOf n = _
      rw [String.data_append, repr_data]
    cases fl with
    | alpha =>
      show (prereleasePatternMatch (String.mk ('a' :: digitsOf n))).map _ = some v
      rw [show String.mk ('a' :: digitsOf n) =
            String.mk ((flavorCode Flavor.alpha).data ++ digitsOf n) from rfl, hseg]
      rw [prereleasePatternMatch_code_repr Flavor.alpha n hn]
      simp only [Option.map_some']
      have hseg3 : ({ data := 'a' :: [].append (digitsOf n) } : String) =
          flavorCode Flavor.alpha ++ Nat.repr n := by
        apply String.ext
        show 'a' :: [].append (digitsOf n) = _
        rw [String.data_append, repr_data]
        rfl
      rw [hseg3, version_eta_pre v (flavorCode Flavor.alpha ++ Nat.repr n) hp hb]
    | rc =>
      show (prereleasePatternMatch (String.mk ('r' :: 'c' :: digitsOf n))).map _ = some v
      rw [show String.mk ('r' :: 'c' :: digitsOf n) =
            String.mk ((flavorCode Flavor.rc).data ++ digitsOf n) from rfl, hseg]
      rw [prereleasePatternMatch_code_repr Flavor.rc n hn]
      simp only [Option.map_some']
      have hseg3 : ({ data := 'r' :: ['c'].append (digitsOf n) } : String) =
          flavorCode Flavor.rc ++ Nat.repr n := by
        apply String.ext
        show 'r' :: ['c'].append (digitsOf n) = _
        rw [String.data_append, repr_data]
        rfl
      rw [hseg3, version_eta_pre v (flavorCode Flavor.rc ++ Nat.repr n) hp hb]

theorem parse_version_sound (s : String) (v : Version) (h : parse_version s = some v) :
    Wellformed v ∧ Version.format v = s := by
  unfold parse_version at h
  cases h1 : numComponent s.data with
  | none => rw [h1] at h; simp at h
  | some p1 =>
  obtain ⟨n1, r1⟩ := p1
  rw [h1] at h
  simp only [Option.some_bind] at h
  cases h2 : expectDot r1 with
  | none => rw [h2] at h; simp at h
  | some r2 =>
  rw [h2] at h
  simp only [Option.some_bind] at h
  cases h3 : numComponent r2 with
  | none => rw [h3] at h; simp at h
  | some p2 =>
  obtain ⟨n2, r3⟩ := p2
  rw [h3] at h
  simp only [Option.some_bind] at h
  cases h4 : expectDot r3 with
  | none => rw [h4] at h; simp at h
  | some r4 =>
  rw [h4] at h
  simp only [Option.some_bind] at h
  cases h5 : numComponent r4 with
  | none => rw [h5] at h; simp at h
  | some p3 =>
  obtain ⟨n3, r5⟩ := p3
  rw [h5] at h
  simp only [Option.some_bind] at h
  have hs1 := numComponent_sound s.data n1 r1 h1
  have hs2 := expectDot_sound r1 r2 h2
  have hs3 := numComponent_sound r2 n2 r3 h3
  have hs4 := expectDot_sound r3 r4 h4
  have hs5 := numComponent_sound r4 n3 r5 h5
  cases h6 : r5 with
  | nil =>
    rw [h6] at h
    injection h with hv
    subst hv
    refine ⟨⟨rfl, Or.inl rfl⟩, ?_⟩
    apply String.ext
    rw [format_data_final _ rfl rfl]
    rw [hs1, hs2, hs3, hs4, hs5, h6]
    simp
  | cons c cs =>
    rw [h6] at h
    change (prereleasePatternMatch (String.mk (c :: cs))).map
      (fun x => (⟨n1, n2, n3, [String.mk (c :: cs)], []⟩ : Version)) = some v at h
    cases h7 : prereleasePatternMatch (String.mk (c :: cs)) with
    | none => rw [h7] at h; simp at h
    | some pr =>
      obtain ⟨flstr, n⟩ := pr
      rw [h7] at h
      simp only [Option.map_some'] at h
      injection h with hv
      subst hv
      obtain ⟨hn, hcase⟩ := prereleasePatternMatch_sound _ _ _ h7
      rcases hcase with ⟨hfl, hseg⟩ | ⟨hfl, hseg⟩
      · refine ⟨⟨rfl, Or.inr ⟨Flavor.alpha, n, hn, ?_⟩⟩, ?_⟩
        · show [String.mk (c :: cs)] = _
          rw [hseg]
          rfl
        · apply String.ext
          have hpre : (⟨n1, n2, n3, [String.mk (c :: cs)], []⟩ : Version).prerelease =
              [flavorCode Flavor.alpha ++ Nat.repr n] := by
            show [String.mk (c :: cs)] = _
            rw [hseg]
            rfl
          rw [format_data_pre _ Flavor.alpha n hpre rfl]
          have hdata : c :: cs = (flavorCode Flavor.alpha).data ++ digitsOf n := by
            have := congrArg String.data hseg
            rw [data_flavor_append_alpha, repr_data] at this
            exact this
          rw [hs1, hs2, hs3, hs4, hs5, h6, hdata]
      · refine ⟨⟨rfl, Or.inr ⟨Flavor.rc, n, hn, ?_⟩⟩, ?_⟩
        · show [String.mk (c :: cs)] = _
          rw [hseg]
          rfl
        · apply String.ext
          have hpre : (⟨n1, n2, n3, [String.mk (c :: cs)], []⟩ : Version).prerelease =
              [flavorCode Flavor.rc ++ Nat.repr n] := by
            show [String.mk (c :: cs)] = _
            rw [hseg]
            rfl
          rw [format_data_pre _ Flavor.rc n hpre rfl]
          have hdata : c :: cs = (flavorCode Flavor.rc).data ++ digitsOf n := by
            have := congrArg String.data hseg
            rw [data_flavor_append_rc, repr_data] at this
            exact this
          rw [hs1, hs2, hs3, hs4, hs5, h6, hdata]

theorem wf_is_prerelease (v : Version) (fl : Flavor) (n : Nat) (hn : 1 ≤ n)
    (hp : v.prerelease = [flavorCode fl ++ Nat.repr n]) :
    is_prerelease_version v = true := by
  unfold is_prerelease_version
  rw [hp]
  show (prereleasePatternMatch (flavorCode fl ++ Nat.repr n)).isSome = true
  rw [prereleasePatternMatch_code_repr fl n hn]
  rfl

theorem validate_version_eq_isSome (s : String) :
    validate_version s = (parse_version s).isSome := by
  unfold validate_version Version.coerce
  cases hp : parse_version s with
  | none => rfl
  | some v =>
    obtain ⟨⟨hb, hpre⟩, _⟩ := parse_version_sound s v hp
    rcases hpre with h | ⟨fl, n, hn, h⟩
    · simp [h]
    · have := wf_is_prerelease v fl n hn h
      simp [this]

theorem is_alpha_wf (v : Version) (hw : Wellformed v) :
    is_alpha_version v = true ↔ ∃ n, 1 ≤ n ∧ v.prerelease = ["a" ++ Nat.repr n] := by
  obtain ⟨hb, hpre⟩ := hw
  rcases hpre with hp | ⟨fl, n, hn, hp⟩
  · constructor
    · intro h
      unfold is_alpha_version at h
      rw [hp] at h
      exact absurd h (by simp)
    · rintro ⟨m, hm, hcontra⟩
      rw [hp] at hcontra
      exact absurd hcontra (by simp)
  · cases fl with
    | alpha =>
      constructor
      · intro _
        exact ⟨n, hn, hp⟩
      · intro _
        unfold is_alpha_version
        rw [hp]
        show (match prereleasePatternMatch (flavorCode Flavor.alpha ++ Nat.repr n) with
          | some pr => pr.1 == "a"
          | none => false) = true
        rw [prereleasePatternMatch_code_repr Flavor.alpha n hn]
        rfl
    | rc =>
      constructor
      · intro h
        unfold is_alpha_version at h
        rw [hp] at h
        have h2 : (match prereleasePatternMatch (flavorCode Flavor.rc ++ Nat.repr n) with
            | some pr => pr.1 == "a"
            | none => false) = true := h
        rw [prereleasePatternMatch_code_repr Flavor.rc n hn] at h2
        simp only [beq_iff_eq] at h2
        exact absurd h2 (by decide)
      · rintro ⟨m, hm, hcontra⟩
        rw [hp] at hcontra
        injection hcontra with h1 _
        rw [show (flavorCode Flavor.rc : String) = "rc" from rfl] at h1
        have h2 := congrArg String.data h1
        rw [data_flavor_append_rc, data_flavor_append_alpha] at h2
        injection h2 with h3 _
        exact absurd h3 (by decide)

theorem next_prerelease_nil (v : Version) (fl : Flavor) (h : v.prerelease = []) :
    next_prerelease v fl =
      some ⟨v.major, v.minor, v.patch, [flavorCode fl ++ Nat.repr (0 + 1)], []⟩ := by
  unfold next_prerelease
  rw [h]
  rfl

theorem next_prerelease_cons (v : Version) (fl : Flavor) (p : String)
    (rest : List String) (h : v.prerelease = p :: rest) :
    next_prerelease v fl = (prereleasePatternMatch p).map
      (fun pr => ⟨v.major, v.minor, v.patch,
        [flavorCode fl ++ Nat.repr (pr.2 + 1)], []⟩) := by
  unfold next_prerelease
  rw [h]
  show ((prereleasePatternMatch p).map (fun (pr : String × Nat) => pr.2)).map _ = _
  cases hm : prereleasePatternMatch p with
  | none => rfl
  | some pr => rfl

theorem next_prerelease_wellformed (v w : Version) (fl : Flavor)
    (h : next_prerelease v fl = some w) : Wellformed w := by
  cases hpre : v.prerelease with
  | nil =>
    rw [next_prerelease_nil v fl hpre] at h
    injection h with hv
    subst hv
    exact ⟨rfl, Or.inr ⟨fl, 0 + 1, by omega, rfl⟩⟩
  | cons p rest =>
    rw [next_prerelease_cons v fl p rest hpre] at h
    cases hm : prereleasePatternMatch p with
    | none =>
      rw [hm] at h
      exact absurd h (by simp)
    | some pr =>
      rw [hm] at h
      simp only [Option.map_some'] at h
      injection h with hv
      subst hv
      exact ⟨rfl, Or.inr ⟨fl, pr.2 + 1, by omega, rfl⟩⟩

theorem coerce_wellformed (s : String) (v : Version) (h : Version.coerce s = some v) :
    Wellformed v :=
  (parse_version_sound s v h).1

theorem parse_next_version_ok_wellformed (cur dir : String) (v : Version)
    (h : parse_next_version cur dir = .ok v) : Wellformed v := by
  unfold parse_next_version at h
  split_ifs at h with h1 h2 h3 h4 h5
  · split at h
    · injection h with hv; subst hv; exact ⟨rfl, Or.inl rfl⟩
    · exact absurd h (by simp)
  · split at h
    · injection h with hv; subst hv; exact ⟨rfl, Or.inl rfl⟩
    · exact absurd h (by simp)
  · split at h
    · injection h with hv; subst hv; exact ⟨rfl, Or.inl rfl⟩
    · exact absurd h (by simp)
  · split at h
    · exact absurd h (by simp)
    · rename_i c hc
      split at h
      · exact absurd h (by simp)
      · rename_i fl hf
        split at h
        · rename_i w hw
          injection h with hv
          subst hv
          exact next_prerelease_wellformed c w fl hw
        · exact absurd h (by simp)
  · split at h
    · rename_i w hw
      injection h with hv
      subst hv
      exact coerce_wellformed dir w hw
    · exact absurd h (by simp)

/-- Events that touch the repository or its files; the prompts, checks and
final messages are read-only. -/
def Event.isSideEffect : Event → Bool
  | .writeVersionFile _ => true
  | .writePyproject _ => true
  | .generateChangelog _ => true
  | .createBranch _ => true
  | .commit _ => true
  | .push => true
  | _ => false

theorem main_run_reach (env : Env) (v : Version)
    (hg : env.gitClean = true)
    (hr : parse_next_version env.currentVersion env.directive = .ok v)
    (hc : env.confirmAnswer = true)
    (hs : validate_code_is_release_ready env.sdkVersion v = some true) :
    main_run env =
      ⟨[Event.checkCleanGit, Event.resolveVersion,
        Event.askConfirm (env.tags.contains v.format)
          (if env.tags.contains v.format then false else true),
        Event.checkSdk, Event.writeVersionFile v.format,
        Event.writePyproject v.format] ++
        (if v.prerelease.isEmpty then [Event.generateChangelog v.format] else []) ++
        (if is_alpha_version v && !git_current_branch_is_master_or_release env.branch
         then [Event.commit v.format, Event.push, Event.doneSameBranch v.format]
         else [Event.createBranch (release_branch_name v), Event.commit v.format,
               Event.push,
               Event.doneNewBranch
                 (pull_request_url env.branch (release_branch_name v))]),
       Outcome.completed⟩ := by
  unfold main_run
  rw [hg, hr, hc]
  simp only [Bool.not_true, Bool.false_eq_true, if_false]
  rw [hs]
  by_cases hw : (is_alpha_version v &&
      !git_current_branch_is_master_or_release env.branch) = true
  · rw [if_pos hw, if_pos hw]
  · rw [if_neg hw, if_neg hw]

theorem main_run_not_clean (env : Env) (hg : env.gitClean = false) :
    main_run env = ⟨[Event.checkCleanGit], Outcome.exited⟩ := by
  unfold main_run
  rw [hg]
  rfl

theorem main_run_invalid (env : Env) (hg : env.gitClean = true)
    (hr : parse_next_version env.currentVersion env.directive = ResolveResult.invalid) :
    main_run env = ⟨[Event.checkCleanGit, Event.resolveVersion], Outcome.errored⟩ := by
  unfold main_run
  rw [hg, hr]
  rfl

theorem main_run_crash (env : Env) (hg : env.gitClean = true)
    (hr : parse_next_version env.currentVersion env.directive = ResolveResult.crash) :
    main_run env = ⟨[Event.checkCleanGit, Event.resolveVersion], Outcome.errored⟩ := by
  unfold main_run
  rw [hg, hr]
  rfl

theorem main_run_declined (env : Env) (v : Version) (hg : env.gitClean = true)
    (hr : parse_next_version env.currentVersion env.directive = ResolveResult.ok v)
    (hcf : env.confirmAnswer = false) :
    main_run env =
      ⟨[Event.checkCleanGit, Event.resolveVersion,
        Event.askConfirm (env.tags.contains v.format)
          (if env.tags.contains v.format then false else true)], Outcome.exited⟩ := by
  unfold main_run
  rw [hg, hr, hcf]
  simp

theorem main_run_sdk_none (env : Env) (v : Version) (hg : env.gitClean = true)
    (hr : parse_next_version env.currentVersion env.directive = ResolveResult.ok v)
    (hcf : env.confirmAnswer = true)
    (hs : validate_code_is_release_ready env.sdkVersion v = none) :
    main_run env =
      ⟨[Event.checkCleanGit, Event.resolveVersion,
        Event.askConfirm (env.tags.contains v.format)
          (if env.tags.contains v.format then false else true),
        Event.checkSdk], Outcome.errored⟩ := by
  unfold main_run
  rw [hg, hr, hcf]
  simp only [Bool.not_true, Bool.false_eq_true, if_false]
  rw [hs]

theorem main_run_sdk_mismatch (env : Env) (v : Version) (hg : env.gitClean = true)
    (hr : parse_next_version env.currentVersion env.directive = ResolveResult.ok v)
    (hcf : env.confirmAnswer = true)
    (hs : validate_code_is_release_ready env.sdkVersion v = some false) :
    main_run env =
      ⟨[Event.checkCleanGit, Event.resolveVersion,
        Event.askConfirm (env.tags.contains v.format)
          (if env.tags.contains v.format then false else true),
        Event.checkSdk], Outcome.exited⟩ := by
  unfold main_run
  rw [hg, hr, hcf]
  simp only [Bool.not_true, Bool.false_eq_true, if_false]
  rw [hs]

theorem askConfirm_mem (env : Env) (v : Version) (hg : env.gitClean = true)
    (hr : parse_next_version env.currentVersion env.directive = ResolveResult.ok v) :
    Event.askConfirm (env.tags.contains v.format)
      (if env.tags.contains v.format then false else true) ∈ (main_run env).events := by
  cases hcf : env.confirmAnswer with
  | false =>
    rw [main_run_declined env v hg hr hcf]
    simp
  | true =>
    cases hs : validate_code_is_release_ready env.sdkVersion v with
    | none =>
      rw [main_run_sdk_none env v hg hr hcf hs]
      simp
    | some b =>
      cases b with
      | false =>
        rw [main_run_sdk_mismatch env v hg hr hcf hs]
        simp
      | true =>
        rw [main_run_reach env v hg hr hcf hs]
        simp

/-! ## Claims -/

/-- Claim C1: for every version v and requested flavor, next_prerelease
keeps major.minor.patch unchanged and produces a prerelease of the requested
flavor whose counter is 1 when v has no prerelease and the existing counter
plus one when v has a prerelease of any flavor; in particular applying alpha
then rc starting from a prerelease-free v yields counter 2. -/
theorem claim_C1 (v : Version) (flavor : Flavor) :
    (v.prerelease = [] →
      next_prerelease v flavor =
        some ⟨v.major, v.minor, v.patch, [flavorCode flavor ++ Nat.repr 1], []⟩) ∧
    (∀ seg rest flstr n, v.prerelease = seg :: rest →
      prereleasePatternMatch seg = some (flstr, n) →
      next_prerelease v flavor =
        some ⟨v.major, v.minor, v.patch,
          [flavorCode flavor ++ Nat.repr (n + 1)], []⟩) ∧
    (v.prerelease = [] →
      (next_prerelease v Flavor.alpha).bind (fun w => next_prerelease w Flavor.rc) =
        some ⟨v.major, v.minor, v.patch, ["rc" ++ Nat.repr 2], []⟩) := by
  refine ⟨?_, ?_, ?_⟩
  · intro hp
    rw [next_prerelease_nil v flavor hp]
  · intro seg rest flstr n hp hm
    rw [next_prerelease_cons v flavor seg rest hp, hm]
    rfl
  · intro hp
    rw [next_prerelease_nil v Flavor.alpha hp]
    simp only [Option.some_bind]
    rw [next_prerelease_cons _ Flavor.rc (flavorCode Flavor.alpha ++ Nat.repr (0 + 1))
      [] rfl]
    rw [prereleasePatternMatch_code_repr Flavor.alpha (0 + 1) (by omega)]
    rfl

/-- Claim C1 witness: scenario D, current version 2.4.1a2 and directive rc
resolve to 2.4.1rc3. -/
theorem claim_C1_witness :
    next_prerelease ⟨2, 4, 1, ["a2"], []⟩ Flavor.rc = some ⟨2, 4, 1, ["rc3"], []⟩ := by
  have h := (claim_C1 ⟨2, 4, 1, ["a2"], []⟩ Flavor.rc).2.1 "a2" [] "a" 2 rfl (by decide)
  exact h

/-- Claim C10: next_prerelease is total exactly on versions whose prerelease
is absent or whose single prerelease identifier matches
PRERELEASE_VERSION_PATTERN; on a single identifier that fails the pattern
the counter extraction crashes (modelled as none). -/
theorem claim_C10 (v : Version) (flavor : Flavor) :
    (∀ seg, v.prerelease = [seg] →
      (next_prerelease v flavor = none ↔ prereleasePatternMatch seg = none)) ∧
    (v.prerelease = [] → (next_prerelease v flavor).isSome = true) := by
  constructor
  · intro seg hp
    rw [next_prerelease_cons v flavor seg [] hp]
    cases hm : prereleasePatternMatch seg with
    | none => simp
    | some pr => simp
  · intro hp
    rw [next_prerelease_nil v flavor hp]
    rfl

/-- Claim C10 witness: a coerced legacy prerelease identifier such as dev1
makes next_prerelease crash. -/
theorem claim_C10_witness :
    next_prerelease ⟨2, 4, 1, ["dev1"], []⟩ Flavor.rc = none ∧
    prereleasePatternMatch "dev1" = none := by
  refine ⟨?_, by decide⟩
  exact ((claim_C10 ⟨2, 4, 1, ["dev1"], []⟩ Flavor.rc).1 "dev1" rfl).mpr (by decide)

theorem not_hyphen_stripHyphens (s : String) : '-' ∉ (stripHyphens s).data := by
  intro hmem
  have hmem2 : '-' ∈ List.filter (fun c => c != '-') s.data := hmem
  have h := List.of_mem_filter hmem2
  simp at h

/-- Claim C5: for every version producible by this system the canonical
string form is major.minor.patch rendered with no leading zeros, directly
followed (no separator) by the optional flavor code and counter, contains no
hyphen, and parsing it gives the version back. -/
theorem claim_C5 (v : Version) (hw : Wellformed v) :
    (v.prerelease = [] →
      Version.format v =
        Nat.repr v.major ++ "." ++ Nat.repr v.minor ++ "." ++ Nat.repr v.patch) ∧
    (∀ fl n, v.prerelease = [flavorCode fl ++ Nat.repr n] →
      Version.format v =
        Nat.repr v.major ++ "." ++ Nat.repr v.minor ++ "." ++ Nat.repr v.patch ++
          flavorCode fl ++ Nat.repr n) ∧
    '-' ∉ (Version.format v).data ∧
    parse_version (Version.format v) = some v := by
  refine ⟨?_, ?_, ?_, parse_format v hw⟩
  · intro hp
    apply String.ext
    rw [format_data_final v hp hw.1]
    simp [String.data_append, repr_data, dot_data]
  · intro fl n hp
    apply String.ext
    rw [format_data_pre v fl n hp hw.1]
    simp [String.data_append, repr_data, dot_data]
  · show '-' ∉ (stripHyphens _).data
    exact not_hyphen_stripHyphens _

/-- Claim C5 witness: the canonical form and the round trip at the concrete
version 2.4.1rc3. -/
theorem claim_C5_witness :
    Wellformed ⟨2, 4, 1, ["rc3"], []⟩ ∧
    Version.format ⟨2, 4, 1, ["rc3"], []⟩ = "2.4.1rc3" ∧
    parse_version (Version.format ⟨2, 4, 1, ["rc3"], []⟩) =
      some ⟨2, 4, 1, ["rc3"], []⟩ := by
  have hw : Wellformed ⟨2, 4, 1, ["rc3"], []⟩ :=
    ⟨rfl, Or.inr ⟨Flavor.rc, 3, by omega, rfl⟩⟩
  have h := claim_C5 ⟨2, 4, 1, ["rc3"], []⟩ hw
  refine ⟨hw, ?_, h.2.2.2⟩
  have h2 := h.2.1 Flavor.rc 3 rfl
  exact h2

/-- Claim C3: the explicit directive 2.4.1.rc1 (trailing dot before the
prerelease) fails validation, resolution raises before any file is touched,
and validation accepts exactly the canonical forms X.Y.Z with an optional
a or rc suffix carrying a positive counter with no leading zero. -/
theorem claim_C3 :
    validate_version "2.4.1.rc1" = false ∧
    (∀ cur, parse_next_version cur "2.4.1.rc1" = ResolveResult.invalid) ∧
    (∀ env : Env, env.gitClean = true → env.directive = "2.4.1.rc1" →
      (main_run env).outcome = Outcome.errored ∧
      ∀ e ∈ (main_run env).events, e.isSideEffect = false) ∧
    (∀ s, validate_version s = true → ∃ v, Wellformed v ∧ Version.format v = s) := by
  have hval : validate_version "2.4.1.rc1" = false := by decide
  have hpn : ∀ cur, parse_next_version cur "2.4.1.rc1" = ResolveResult.invalid := by
    intro cur
    unfold parse_next_version
    rw [if_neg (by decide), if_neg (by decide), if_neg (by decide),
      if_neg (by decide), if_neg (by rw [hval]; decide)]
  refine ⟨hval, hpn, ?_, ?_⟩
  · intro env hg hd
    have hr : parse_next_version env.currentVersion env.directive =
        ResolveResult.invalid := by
      rw [hd]
      exact hpn env.currentVersion
    rw [main_run_invalid env hg hr]
    refine ⟨rfl, ?_⟩
    intro e he
    rcases List.mem_cons.mp he with rfl | he
    · rfl
    rcases List.mem_cons.mp he with rfl | he
    · rfl
    exact absurd he (by simp)
  · intro s hv
    rw [validate_version_eq_isSome] at hv
    obtain ⟨v, hp⟩ := Option.isSome_iff_exists.mp hv
    obtain ⟨hw, hf⟩ := parse_version_sound s v hp
    exact ⟨v, hw, hf⟩

/-- Claim C3 witness: a run with the directive 2.4.1.rc1 ends in an error
with nothing written, and the well-formed text 2.4.1rc1 is accepted. -/
theorem claim_C3_witness :
    (main_run ⟨true, "2.4.0", "2.4.1.rc1", true, "2.4.5", "master", []⟩).outcome =
      Outcome.errored ∧
    (∃ v, Wellformed v ∧ Version.format v = "2.4.1rc1") := by
  constructor
  · exact (claim_C3.2.2.1 ⟨true, "2.4.0", "2.4.1.rc1", true, "2.4.5", "master", []⟩
      rfl rfl).1
  · exact claim_C3.2.2.2 "2.4.1rc1" (by decide)

/-- Claim C4 counterexample: with the current version 2.4.1a2 (an alpha
prerelease) and the directive rc (a different flavor), the three-way select
is NOT triggered and resolution is direct via next_prerelease, while the
select IS triggered from the prerelease-free 2.4.0 — the opposite of the
claimed trigger condition. -/
theorem claim_C4_counterexample :
    ask_version_select_triggered "rc" ⟨2, 4, 1, ["a2"], []⟩ = false ∧
    parse_next_version "2.4.1a2" "rc" = ResolveResult.ok ⟨2, 4, 1, ["rc3"], []⟩ ∧
    ask_version_select_triggered "rc" ⟨2, 4, 0, [], []⟩ = true := by
  refine ⟨rfl, ?_, rfl⟩
  decide

/-- Claim C4 amended: the three-way disambiguation (candidates in source
order next-minor, next-patch, next-major, each advanced into the requested
flavor with counter 1) is triggered, in the interactive path, precisely when
the answer is alpha or rc and the current version has NO prerelease; a
flavor directive in parse_next_version always resolves directly via
next_prerelease. -/
theorem claim_C4 :
    (∀ (answer : String) (cur : Version),
      ask_version_select_triggered answer cur = true ↔
        ((answer = "alpha" ∨ answer = "rc") ∧ cur.prerelease = [])) ∧
    (∀ (cur : Version) (fl : Flavor), cur.prerelease = [] →
      ask_version_choices cur fl =
        [some ⟨cur.major, cur.minor + 1, 0, [flavorCode fl ++ Nat.repr 1], []⟩,
         some ⟨cur.major, cur.minor, cur.patch + 1, [flavorCode fl ++ Nat.repr 1], []⟩,
         some ⟨cur.major + 1, 0, 0, [flavorCode fl ++ Nat.repr 1], []⟩]) ∧
    (∀ (curText flText : String) (cur : Version) (fl : Flavor) (w : Version),
      PRERELEASE_FLAVORS.contains flText = true →
      Version.coerce curText = some cur →
      flavorOfText flText = some fl →
      next_prerelease cur fl = some w →
      parse_next_version curText flText = ResolveResult.ok w) := by
  refine ⟨?_, ?_, ?_⟩
  · intro answer cur
    unfold ask_version_select_triggered PRERELEASE_FLAVORS
    simp [List.isEmpty_iff]
  · intro cur fl hp
    unfold ask_version_choices
    rw [next_prerelease_nil cur.next_minor fl rfl,
      next_prerelease_nil cur.next_patch fl rfl,
      next_prerelease_nil cur.next_major fl rfl]
    rfl
  · intro curText flText cur fl w hcont hcoe hflav hnext
    have hft : flText = "alpha" ∨ flText = "rc" := by
      simpa [PRERELEASE_FLAVORS] using hcont
    rcases hft with rfl | rfl
    · unfold parse_next_version
      rw [if_neg (by decide), if_neg (by decide), if_neg (by decide),
        if_pos (by decide), hcoe]
      have hfa : fl = Flavor.alpha := by
        have hred : flavorOfText "alpha" = some Flavor.alpha := by decide
        rw [hred] at hflav
        injection hflav with h2
        exact h2.symm
      subst hfa
      show (match next_prerelease cur Flavor.alpha with
        | some v => ResolveResult.ok v
        | none => ResolveResult.crash) = ResolveResult.ok w
      rw [hnext]
    · unfold parse_next_version
      rw [if_neg (by decide), if_neg (by decide), if_neg (by decide),
        if_pos (by decide), hcoe]
      have hfa : fl = Flavor.rc := by
        have hred : flavorOfText "rc" = some Flavor.rc := by decide
        rw [hred] at hflav
        injection hflav with h2
        exact h2.symm
      subst hfa
      show (match next_prerelease cur Flavor.rc with
        | some v => ResolveResult.ok v
        | none => ResolveResult.crash) = ResolveResult.ok w
      rw [hnext]

/-- Claim C4 amended witness: the trigger holds at the concrete
prerelease-free 2.4.0 with answer alpha, the three candidates are
2.5.0a1, 2.4.1a1, 3.0.0a1, and the direct path resolves 2.4.1a2 with rc
to 2.4.1rc3. -/
theorem claim_C4_witness :
    ask_version_select_triggered "alpha" ⟨2, 4, 0, [], []⟩ = true ∧
    ask_version_choices ⟨2, 4, 0, [], []⟩ Flavor.alpha =
      [some ⟨2, 5, 0, ["a1"], []⟩, some ⟨2, 4, 1, ["a1"], []⟩,
       some ⟨3, 0, 0, ["a1"], []⟩] ∧
    parse_next_version "2.4.1a2" "rc" = ResolveResult.ok ⟨2, 4, 1, ["rc3"], []⟩ := by
  refine ⟨?_, ?_, ?_⟩
  · exact (claim_C4.1 "alpha" ⟨2, 4, 0, [], []⟩).mpr ⟨Or.inl rfl, rfl⟩
  · exact claim_C4.2.1 ⟨2, 4, 0, [], []⟩ Flavor.alpha rfl
  · exact claim_C4.2.2 "2.4.1a2" "rc" ⟨2, 4, 1, ["a2"], []⟩ Flavor.rc
      ⟨2, 4, 1, ["rc3"], []⟩ (by decide) (by decide) (by decide) (by decide)

/-- Claim C6: the dependency check fails (exiting before any file write)
exactly when the dependency version differs from the target in major or
minor; patch or prerelease differences are tolerated. -/
theorem claim_C6 (env : Env) (v d : Version)
    (hg : env.gitClean = true)
    (hr : parse_next_version env.currentVersion env.directive = ResolveResult.ok v)
    (hcf : env.confirmAnswer = true)
    (hd : Version.coerce env.sdkVersion = some d) :
    (validate_code_is_release_ready env.sdkVersion v = some false ↔
      (d.major ≠ v.major ∨ d.minor ≠ v.minor)) ∧
    ((d.major ≠ v.major ∨ d.minor ≠ v.minor) →
      (main_run env).outcome = Outcome.exited ∧
      ∀ e ∈ (main_run env).events, e.isSideEffect = false) ∧
    ((d.major = v.major ∧ d.minor = v.minor) →
      validate_code_is_release_ready env.sdkVersion v = some true) := by
  have hvc : validate_code_is_release_ready env.sdkVersion v =
      some (d.major == v.major && d.minor == v.minor) := by
    unfold validate_code_is_release_ready
    rw [hd]
  have hbool : ∀ hmm : d.major ≠ v.major ∨ d.minor ≠ v.minor,
      (d.major == v.major && d.minor == v.minor) = false := by
    intro hmm
    rcases hmm with h | h
    · rw [beq_eq_false_iff_ne.mpr h, Bool.false_and]
    · rw [beq_eq_false_iff_ne.mpr h, Bool.and_false]
  refine ⟨?_, ?_, ?_⟩
  · rw [hvc]
    simp only [Option.some.injEq]
    constructor
    · intro hb
      by_contra hcon
      push_neg at hcon
      obtain ⟨h1, h2⟩ := hcon
      rw [h1, h2] at hb
      simp at hb
    · exact hbool
  · intro hmm
    have hs : validate_code_is_release_ready env.sdkVersion v = some false := by
      rw [hvc, hbool hmm]
    rw [main_run_sdk_mismatch env v hg hr hcf hs]
    refine ⟨rfl, ?_⟩
    intro e he
    simp only [List.mem_cons, List.not_mem_nil, or_false] at he
    rcases he with rfl | rfl | rfl | rfl <;> rfl
  · rintro ⟨h1, h2⟩
    rw [hvc, h1, h2]
    simp

/-- Claim C6 witness: scenario F, the dependency 2.3.5 against the target
2.4.1 exits with nothing written. -/
theorem claim_C6_witness :
    validate_code_is_release_ready "2.3.5" ⟨2, 4, 1, [], []⟩ = some false ∧
    (main_run ⟨true, "2.4.0", "patch", true, "2.3.5", "master", []⟩).outcome =
      Outcome.exited := by
  have h := claim_C6 ⟨true, "2.4.0", "patch", true, "2.3.5", "master", []⟩
    ⟨2, 4, 1, [], []⟩ ⟨2, 3, 5, [], []⟩ rfl (by decide) rfl (by decide)
  constructor
  · exact h.1.mpr (Or.inr (by decide))
  · exact (h.2.1 (Or.inr (by decide))).1

/-- Claim C7: in a run that reaches the persist stage, the changelog step
runs with the resolved version exactly when that version carries no
prerelease. -/
theorem claim_C7 (env : Env) (v : Version)
    (hg : env.gitClean = true)
    (hr : parse_next_version env.currentVersion env.directive = ResolveResult.ok v)
    (hcf : env.confirmAnswer = true)
    (hs : validate_code_is_release_ready env.sdkVersion v = some true) :
    (Event.generateChangelog v.format ∈ (main_run env).events ↔ v.prerelease = []) ∧
    (∀ s, Event.generateChangelog s ∈ (main_run env).events →
      s = v.format ∧ v.prerelease = []) := by
  rw [main_run_reach env v hg hr hcf hs]
  by_cases hpre : v.prerelease.isEmpty = true
  · have hp : v.prerelease = [] := by
      rwa [List.isEmpty_iff] at hpre
    rw [if_pos hpre]
    by_cases hw : (is_alpha_version v &&
        !git_current_branch_is_master_or_release env.branch) = true
    · rw [if_pos hw]
      constructor
      · simp [hp]
      · intro s hmem
        simp at hmem
        exact ⟨hmem, hp⟩
    · rw [if_neg hw]
      constructor
      · simp [hp]
      · intro s hmem
        simp at hmem
        exact ⟨hmem, hp⟩
  · have hp : ¬ v.prerelease = [] := by
      rw [← List.isEmpty_iff]
      simpa using hpre
    rw [if_neg hpre]
    by_cases hw : (is_alpha_version v &&
        !git_current_branch_is_master_or_release env.branch) = true
    · rw [if_pos hw]
      constructor
      · constructor
        · intro hmem
          simp at hmem
        · intro hc
          exact absurd hc hp
      · intro s hmem
        simp at hmem
    · rw [if_neg hw]
      constructor
      · constructor
        · intro hmem
          simp at hmem
        · intro hc
          exact absurd hc hp
      · intro s hmem
        simp at hmem

/-- Claim C7 witness: the final release 2.4.1 gets a changelog while the
alpha 2.4.0a1 does not. -/
theorem claim_C7_witness :
    Event.generateChangelog "2.4.1" ∈
      (main_run ⟨true, "2.4.0", "patch", true, "2.4.5", "master", []⟩).events ∧
    (∀ s, Event.generateChangelog s ∉
      (main_run ⟨true, "2.4.0", "alpha", true, "2.4.5", "feature/x", []⟩).events) := by
  constructor
  · have h := claim_C7 ⟨true, "2.4.0", "patch", true, "2.4.5", "master", []⟩
      ⟨2, 4, 1, [], []⟩ rfl (by decide) rfl (by decide)
    exact h.1.mpr rfl
  · intro s hmem
    have h := claim_C7 ⟨true, "2.4.0", "alpha", true, "2.4.5", "feature/x", []⟩
      ⟨2, 4, 0, ["a1"], []⟩ rfl (by decide) rfl (by decide)
    exact absurd (h.2 s hmem).2 (by decide)

/-- Claim C8: the confirmation asks the overwrite question with default
refuse when the target is already a tag and the proceed question with
default accept otherwise, and a decline ends the run with exit code 1 and
no side effect performed. -/
theorem claim_C8 (env : Env) (v : Version)
    (hg : env.gitClean = true)
    (hr : parse_next_version env.currentVersion env.directive = ResolveResult.ok v) :
    (env.tags.contains v.format = true →
      Event.askConfirm true false ∈ (main_run env).events) ∧
    (env.tags.contains v.format = false →
      Event.askConfirm false true ∈ (main_run env).events) ∧
    (env.confirmAnswer = false →
      (main_run env).outcome = Outcome.exited ∧
      ∀ e ∈ (main_run env).events, e.isSideEffect = false) := by
  refine ⟨?_, ?_, ?_⟩
  · intro ht
    have h := askConfirm_mem env v hg hr
    rw [ht] at h
    simpa using h
  · intro ht
    have h := askConfirm_mem env v hg hr
    rw [ht] at h
    simpa using h
  · intro hcf
    rw [main_run_declined env v hg hr hcf]
    refine ⟨rfl, ?_⟩
    intro e he
    simp only [List.mem_cons, List.not_mem_nil, or_false] at he
    rcases he with rfl | rfl | rfl <;> rfl

/-- Claim C8 witness: with the tag 2.4.1 already present the overwrite
question is asked, and a declined proceed question exits with no side
effect. -/
theorem claim_C8_witness :
    Event.askConfirm true false ∈
      (main_run ⟨true, "2.4.0", "patch", true, "2.4.5", "master", ["2.4.1"]⟩).events ∧
    (main_run ⟨true, "2.4.0", "patch", false, "2.4.5", "master", []⟩).outcome =
      Outcome.exited := by
  constructor
  · exact (claim_C8 ⟨true, "2.4.0", "patch", true, "2.4.5", "master", ["2.4.1"]⟩
      ⟨2, 4, 1, [], []⟩ rfl (by decide)).1 (by decide)
  · exact ((claim_C8 ⟨true, "2.4.0", "patch", false, "2.4.5", "master", []⟩
      ⟨2, 4, 1, [], []⟩ rfl (by decide)).2.2 rfl).1

/-- Claim C2: the same-branch workflow is taken exactly when the resolved
version is an alpha (single prerelease identifier of flavor a) and the
current branch is neither master nor a release branch; otherwise a branch
named prepare-release- plus the version string is created, committed on and
pushed, and the done message links a comparison from the base branch to the
new branch. -/
theorem claim_C2 (env : Env) (v : Version)
    (hg : env.gitClean = true)
    (hr : parse_next_version env.currentVersion env.directive = ResolveResult.ok v)
    (hcf : env.confirmAnswer = true)
    (hs : validate_code_is_release_ready env.sdkVersion v = some true) :
    ((∃ s, Event.doneSameBranch s ∈ (main_run env).events) ↔
      (is_alpha_version v = true ∧
        git_current_branch_is_master_or_release env.branch = false)) ∧
    (is_alpha_version v = true ↔ ∃ n, 1 ≤ n ∧ v.prerelease = ["a" ++ Nat.repr n]) ∧
    ((is_alpha_version v = true ∧
        git_current_branch_is_master_or_release env.branch = false) →
      ∀ name, Event.createBranch name ∉ (main_run env).events) ∧
    (¬(is_alpha_version v = true ∧
        git_current_branch_is_master_or_release env.branch = false) →
      Event.createBranch (release_branch_name v) ∈ (main_run env).events ∧
      Event.commit v.format ∈ (main_run env).events ∧
      Event.push ∈ (main_run env).events ∧
      Event.doneNewBranch (pull_request_url env.branch (release_branch_name v)) ∈
        (main_run env).events) := by
  have hwf := parse_next_version_ok_wellformed _ _ v hr
  have hbeq : (is_alpha_version v &&
      !git_current_branch_is_master_or_release env.branch) = true ↔
      (is_alpha_version v = true ∧
        git_current_branch_is_master_or_release env.branch = false) := by
    rw [Bool.and_eq_true, Bool.not_eq_true']
  rw [main_run_reach env v hg hr hcf hs]
  refine ⟨?_, is_alpha_wf v hwf, ?_, ?_⟩
  · by_cases hw : (is_alpha_version v &&
        !git_current_branch_is_master_or_release env.branch) = true
    · rw [if_pos hw]
      constructor
      · intro _
        exact hbeq.mp hw
      · intro _
        exact ⟨v.format, by simp⟩
    · rw [if_neg hw]
      constructor
      · rintro ⟨s, hmem⟩
        by_cases hpre : v.prerelease.isEmpty = true <;>
          simp [hpre] at hmem
      · intro hcond
        exact absurd (hbeq.mpr hcond) hw
  · intro hcond name
    rw [if_pos (hbeq.mpr hcond)]
    intro hmem
    by_cases hpre : v.prerelease.isEmpty = true <;>
      simp [hpre] at hmem
  · intro hcond
    have hw : ¬(is_alpha_version v &&
        !git_current_branch_is_master_or_release env.branch) = true := fun hc =>
      hcond (hbeq.mp hc)
    rw [if_neg hw]
    refine ⟨by simp, by simp, by simp, by simp⟩

/-- Claim C2 witness: a final release from master goes through the release
branch prepare-release-2.4.1 with a comparison link, and an alpha on a
feature branch commits on the same branch. -/
theorem claim_C2_witness :
    Event.createBranch "prepare-release-2.4.1" ∈
      (main_run ⟨true, "2.4.0", "patch", true, "2.4.5", "master", []⟩).events ∧
    Event.doneNewBranch
        "https://github.com/RasaHQ/rasa/compare/master...prepare-release-2.4.1?expand=1" ∈
      (main_run ⟨true, "2.4.0", "patch", true, "2.4.5", "master", []⟩).events ∧
    (∀ name, Event.createBranch name ∉
      (main_run ⟨true, "2.4.0", "alpha", true, "2.4.5", "feature/x", []⟩).events) := by
  have h1 := claim_C2 ⟨true, "2.4.0", "patch", true, "2.4.5", "master", []⟩
    ⟨2, 4, 1, [], []⟩ rfl (by decide) rfl (by decide)
  have h2 := claim_C2 ⟨true, "2.4.0", "alpha", true, "2.4.5", "feature/x", []⟩
    ⟨2, 4, 0, ["a1"], []⟩ rfl (by decide) rfl (by decide)
  refine ⟨?_, ?_, ?_⟩
  · exact (h1.2.2.2 (by decide)).1
  · exact (h1.2.2.2 (by decide)).2.2.2
  · exact h2.2.2.1 (by decide)

/-- Claim C9: in every run the clean-tree check is the first step and
version resolution, when it happens, is the second; any metadata write
happens only after the dependency check, which itself follows the first
four fixed steps. -/
theorem claim_C9 (env : Env) :
    (main_run env).events.take 1 = [Event.checkCleanGit] ∧
    (Event.resolveVersion ∈ (main_run env).events →
      (main_run env).events.take 2 = [Event.checkCleanGit, Event.resolveVersion]) ∧
    (∀ e ∈ (main_run env).events, e.isSideEffect = true →
      ∃ o d, (main_run env).events.take 4 =
        [Event.checkCleanGit, Event.resolveVersion, Event.askConfirm o d,
         Event.checkSdk]) := by
  cases hg : env.gitClean with
  | false =>
    rw [main_run_not_clean env hg]
    refine ⟨rfl, ?_, ?_⟩
    · intro hmem
      simp at hmem
    · intro e he hse
      simp at he
      subst he
      simp [Event.isSideEffect] at hse
  | true =>
    cases hr : parse_next_version env.currentVersion env.directive with
    | invalid =>
      rw [main_run_invalid env hg hr]
      refine ⟨rfl, fun _ => rfl, ?_⟩
      intro e he hse
      simp only [List.mem_cons, List.not_mem_nil, or_false] at he
      rcases he with rfl | rfl <;> simp [Event.isSideEffect] at hse
    | crash =>
      rw [main_run_crash env hg hr]
      refine ⟨rfl, fun _ => rfl, ?_⟩
      intro e he hse
      simp only [List.mem_cons, List.not_mem_nil, or_false] at he
      rcases he with rfl | rfl <;> simp [Event.isSideEffect] at hse
    | ok v =>
      cases hcf : env.confirmAnswer with
      | false =>
        rw [main_run_declined env v hg hr hcf]
        refine ⟨rfl, fun _ => rfl, ?_⟩
        intro e he hse
        simp only [List.mem_cons, List.not_mem_nil, or_false] at he
        rcases he with rfl | rfl | rfl <;> simp [Event.isSideEffect] at hse
      | true =>
        cases hs : validate_code_is_release_ready env.sdkVersion v with
        | none =>
          rw [main_run_sdk_none env v hg hr hcf hs]
          refine ⟨rfl, fun _ => rfl, ?_⟩
          intro e he hse
          simp only [List.mem_cons, List.not_mem_nil, or_false] at he
          rcases he with rfl | rfl | rfl | rfl <;> simp [Event.isSideEffect] at hse
        | some b =>
          cases b with
          | false =>
            rw [main_run_sdk_mismatch env v hg hr hcf hs]
            refine ⟨rfl, fun _ => rfl, ?_⟩
            intro e he hse
            simp only [List.mem_cons, List.not_mem_nil, or_false] at he
            rcases he with rfl | rfl | rfl | rfl <;> simp [Event.isSideEffect] at hse
          | true =>
            rw [main_run_reach env v hg hr hcf hs]
            refine ⟨?_, fun _ => ?_, fun e he hse => ?_⟩
            · simp
            · simp
            · exact ⟨env.tags.contains v.format,
                if env.tags.contains v.format then false else true, by simp⟩

/-- Claim C9 witness: the ordering at a concrete completed run. -/
theorem claim_C9_witness :
    (main_run ⟨true, "2.4.0", "patch", true, "2.4.5", "master", []⟩).events.take 2 =
      [Event.checkCleanGit, Event.resolveVersion] :=
  (claim_C9 ⟨true, "2.4.0", "patch", true, "2.4.5", "master", []⟩).2.1 (by decide)

end Release
